import Mathlib

set_option autoImplicit false

/-!
Verification of the flashcards CLI deck model (src/main.rs).

The Rust `FlashcardDeck` stores a `HashMap<u32, Flashcard>` plus a `next_id`
counter.  The map is embedded as an association list with the usual HashMap
operation semantics (lookup / insert-or-replace / remove / modify-in-place);
`u32` values are embedded as `Nat`.  The current-date string produced by
`chrono::Utc::now().format("%Y-%m-%d")` enters the model as an explicit
`today` parameter, and the random generator backing the shuffle enters as an
explicit index-choice function.
-/

/-- Self-reported difficulty of a card (source enum `Difficulty`). -/
inductive Difficulty where
  | Easy
  | Medium
  | Hard
deriving DecidableEq, Repr

/-- Review statistics of one card (source struct `CardMetadata`). -/
structure CardMetadata where
  difficulty : Difficulty
  times_reviewed : Nat
  correct_count : Nat
  last_reviewed : Option String
deriving DecidableEq, Repr

/-- Source `impl Default for CardMetadata`. -/
def CardMetadata.default : CardMetadata :=
  { difficulty := Difficulty.Medium
    times_reviewed := 0
    correct_count := 0
    last_reviewed := none }

/-- Source struct `Flashcard`. -/
structure Flashcard where
  id : Nat
  question : String
  answer : String
  metadata : CardMetadata
deriving DecidableEq, Repr

/-- Source struct `FlashcardDeck`: the `HashMap<u32, Flashcard>` is embedded
    as an association list of key/card pairs. -/
structure FlashcardDeck where
  cards : List (Nat × Flashcard)
  next_id : Nat
deriving DecidableEq, Repr

/-- Map lookup (`HashMap::get`). -/
def lookupA (k : Nat) : List (Nat × Flashcard) → Option Flashcard
  | [] => none
  | (k', v) :: rest => if k' = k then some v else lookupA k rest

/-- Map insertion (`HashMap::insert`): replaces the binding when the key is
    already present, otherwise adds a new binding. -/
def insertA (k : Nat) (v : Flashcard) : List (Nat × Flashcard) → List (Nat × Flashcard)
  | [] => [(k, v)]
  | (k', v') :: rest => if k' = k then (k, v) :: rest else (k', v') :: insertA k v rest

/-- Map removal (`HashMap::remove`). -/
def eraseA (k : Nat) : List (Nat × Flashcard) → List (Nat × Flashcard)
  | [] => []
  | (k', v') :: rest => if k' = k then rest else (k', v') :: eraseA k rest

/-- In-place modification of the value bound to a key (`HashMap::get_mut`
    followed by field assignments); identity when the key is absent. -/
def modifyA (k : Nat) (f : Flashcard → Flashcard) :
    List (Nat × Flashcard) → List (Nat × Flashcard)
  | [] => []
  | (k', v') :: rest => if k' = k then (k', f v') :: rest else (k', v') :: modifyA k f rest

/-- Source `FlashcardDeck::new`. -/
def FlashcardDeck.new : FlashcardDeck := { cards := [], next_id := 1 }

/-- Keys of the deck map are pairwise distinct: every value of the Rust
    `HashMap` satisfies this, and it is preserved by all the operations. -/
def FlashcardDeck.WF (d : FlashcardDeck) : Prop := (d.cards.map Prod.fst).Nodup

instance (d : FlashcardDeck) : Decidable d.WF := by
  unfold FlashcardDeck.WF; infer_instance

/-- Source `FlashcardDeck::add_card`: builds a card with default metadata
    under the id `next_id`, inserts it, increments `next_id`, and returns the
    assigned id. -/
def FlashcardDeck.add_card (d : FlashcardDeck) (question answer : String) :
    Nat × FlashcardDeck :=
  let card : Flashcard :=
    { id := d.next_id, question := question, answer := answer
      metadata := CardMetadata.default }
  (card.id, { cards := insertA card.id card d.cards, next_id := d.next_id + 1 })

/-- Source `FlashcardDeck::update_card_difficulty`: when the id is bound,
    overwrite the difficulty, bump `times_reviewed`, bump `correct_count` when
    `correct`, and stamp `last_reviewed` with the current date; otherwise do
    nothing. -/
def FlashcardDeck.update_card_difficulty (d : FlashcardDeck) (card_id : Nat)
    (difficulty : Difficulty) (correct : Bool) (today : String) : FlashcardDeck :=
  { d with cards := modifyA card_id (fun card =>
      { card with metadata :=
        { difficulty := difficulty
          times_reviewed := card.metadata.times_reviewed + 1
          correct_count := card.metadata.correct_count + (if correct then 1 else 0)
          last_reviewed := some today } }) d.cards }

/-- Source `FlashcardDeck::delete_card`: removes the binding and reports
    whether one was present. -/
def FlashcardDeck.delete_card (d : FlashcardDeck) (card_id : Nat) :
    Bool × FlashcardDeck :=
  ((lookupA card_id d.cards).isSome, { d with cards := eraseA card_id d.cards })

/-- Source `FlashcardDeck::get_card`. -/
def FlashcardDeck.get_card (d : FlashcardDeck) (card_id : Nat) : Option Flashcard :=
  lookupA card_id d.cards

/-- Source `FlashcardDeck::reset_all_stats`: every card's metadata is replaced
    wholesale by the default metadata. -/
def FlashcardDeck.reset_all_stats (d : FlashcardDeck) : FlashcardDeck :=
  { d with cards := d.cards.map (fun p => (p.1, { p.2 with metadata := CardMetadata.default })) }

/-- A concrete two-card deck used by the witness theorems: card 1 already
    reviewed once (wrongly), card 2 untouched, as after one add/review cycle. -/
def demo2 : FlashcardDeck :=
  { cards :=
      [(1, { id := 1, question := "2+2?", answer := "4"
             metadata := { difficulty := Difficulty.Hard, times_reviewed := 1
                           correct_count := 0, last_reviewed := some "2024-05-01" } }),
       (2, { id := 2, question := "3+3?", answer := "6"
             metadata := CardMetadata.default })]
    next_id := 3 }

/-- Swap of two positions of a vector (`slice::swap`); identity when an index
    is out of bounds (the uses below are always in bounds). -/
def swapIdx {α : Type} (l : List α) (i j : Nat) : List α :=
  match l[i]?, l[j]? with
  | some x, some y => (l.set i y).set j x
  | _, _ => l

/-- Fisher–Yates as implemented by `rand`'s `SliceRandom::shuffle`: for `i`
    from `len - 1` down to `1`, swap position `i` with a generator-chosen
    position in `0..=i`.  The generator is abstracted as `g`; reducing its
    choice modulo `i + 1` keeps it in range whatever `g` returns. -/
def shuffleAux {α : Type} (g : Nat → Nat) : Nat → List α → List α
  | 0, l => l
  | i + 1, l => shuffleAux g i (swapIdx l (i + 1) (g (i + 1) % (i + 2)))

/-- Source `FlashcardDeck::get_random_cards_ids`: collect the current keys and
    shuffle them; the deck itself is read-only here. -/
def FlashcardDeck.get_random_cards_ids (d : FlashcardDeck) (g : Nat → Nat) : List Nat :=
  shuffleAux g (d.cards.length - 1) (d.cards.map Prod.fst)

/-- Normalisation applied to every rating line before comparison
    (source `input.trim().to_lowercase()`). -/
def normalizeLine (s : String) : String :=
  String.mk
    (((s.data.dropWhile Char.isWhitespace).reverse.dropWhile Char.isWhitespace).reverse.map
      Char.toLower)

/-- The four recognised rating keys of the quiz loop. -/
inductive Rating where
  | c
  | g
  | w
  | q
deriving DecidableEq, Repr

/-- The `match` of the source rating loop on the normalised line. -/
def ratingFromKey (t : String) : Option Rating :=
  if t = "c" then some Rating.c
  else if t = "g" then some Rating.g
  else if t = "w" then some Rating.w
  else if t = "q" then some Rating.q
  else none

/-- Classification of one raw rating line, after normalisation. -/
def parseRating (line : String) : Option Rating := ratingFromKey (normalizeLine line)

/-- The inner `loop` of `run_quiz`: keep reading lines until one parses as a
    rating, skipping invalid lines; `none` when the input is exhausted. -/
def readRating : List String → Option (Rating × List String)
  | [] => none
  | line :: rest =>
    match parseRating line with
    | some r => some (r, rest)
    | none => readRating rest

/-- Outcome of a quiz run: the final deck plus the `total`/`correct` pair
    passed to `print_quiz_summary`; `blocked` models exhausting the supplied
    input lines (the process would sit at a prompt), `panicked` models the
    `deck.cards[&card_id]` map index failing. -/
inductive QuizResult where
  | ok (deck : FlashcardDeck) (total : Nat) (correct : Nat)
  | blocked
  | panicked
deriving DecidableEq, Repr

/-- The card loop of source `run_quiz`: for each card id in the captured
    order, bump `quiz_count`, index the card (panicking when absent), consume
    one acknowledgement line, then read rating lines until one parses.
    Ratings `c`/`g`/`w` update the deck through `update_card_difficulty` and
    advance; `q` returns the summary counts accumulated so far, with
    `quiz_count - 1` excluding the current card. -/
def quizLoop (today : String) :
    List Nat → Nat → Nat → FlashcardDeck → List String → QuizResult
  | [], quiz_count, correct_count, deck, _ => QuizResult.ok deck quiz_count correct_count
  | card_id :: rest, quiz_count, correct_count, deck, input =>
    match deck.get_card card_id with
    | none => QuizResult.panicked
    | some _ =>
      match input with
      | [] => QuizResult.blocked
      | _ack :: input1 =>
        match readRating input1 with
        | none => QuizResult.blocked
        | some (Rating.c, input2) =>
          quizLoop today rest (quiz_count + 1) (correct_count + 1)
            (deck.update_card_difficulty card_id Difficulty.Easy true today) input2
        | some (Rating.g, input2) =>
          quizLoop today rest (quiz_count + 1) (correct_count + 1)
            (deck.update_card_difficulty card_id Difficulty.Medium true today) input2
        | some (Rating.w, input2) =>
          quizLoop today rest (quiz_count + 1) correct_count
            (deck.update_card_difficulty card_id Difficulty.Hard false today) input2
        | some (Rating.q, _) => QuizResult.ok deck (quiz_count + 1 - 1) correct_count

/-- Source `run_quiz`: capture the shuffled order once, then run the card loop
    from zero counters. -/
def runQuiz (deck : FlashcardDeck) (g : Nat → Nat) (today : String)
    (input : List String) : QuizResult :=
  quizLoop today (deck.get_random_cards_ids g) 0 0 deck input

/-- A concrete two-card deck with fresh statistics, as right after two add
    calls; quizzing it with ratings `w` then `q` produces `demo2`. -/
def demoFresh : FlashcardDeck :=
  { cards :=
      [(1, { id := 1, question := "2+2?", answer := "4", metadata := CardMetadata.default }),
       (2, { id := 2, question := "3+3?", answer := "6", metadata := CardMetadata.default })]
    next_id := 3 }

/-- One call to a mutating deck operation, for stating invariants over
    arbitrary call sequences. -/
inductive DeckOp where
  | add (question answer : String)
  | del (id : Nat)
  | update (id : Nat) (difficulty : Difficulty) (correct : Bool) (today : String)
  | reset

/-- The deck reached after one operation. -/
def applyOp (d : FlashcardDeck) : DeckOp → FlashcardDeck
  | DeckOp.add q a => (d.add_card q a).2
  | DeckOp.del id => (d.delete_card id).2
  | DeckOp.update id diff c today => d.update_card_difficulty id diff c today
  | DeckOp.reset => d.reset_all_stats

/-- Run a sequence of operations, collecting the ids returned by the add
    calls in order. -/
def runOps (d : FlashcardDeck) : List DeckOp → FlashcardDeck × List Nat
  | [] => (d, [])
  | DeckOp.add q a :: rest =>
    let r := d.add_card q a
    let s := runOps r.2 rest
    (s.1, r.1 :: s.2)
  | DeckOp.del id :: rest => runOps (d.delete_card id).2 rest
  | DeckOp.update id diff c today :: rest =>
    runOps (d.update_card_difficulty id diff c today) rest
  | DeckOp.reset :: rest => runOps d.reset_all_stats rest

/-- Number of add calls in an operation sequence. -/
def countAdds : List DeckOp → Nat
  | [] => 0
  | DeckOp.add _ _ :: rest => countAdds rest + 1
  | _ :: rest => countAdds rest

/-- Every id present in the deck is strictly below `next_id`. -/
def idsBelow (d : FlashcardDeck) : Prop :=
  ∀ k ∈ d.cards.map Prod.fst, k < d.next_id

/-- Every card's `correct_count` is bounded by its `times_reviewed`. -/
def CountInv (d : FlashcardDeck) : Prop :=
  ∀ p ∈ d.cards, p.2.metadata.correct_count ≤ p.2.metadata.times_reviewed

/-- Every reviewed card carries a last-review date. -/
def LastReviewedInv (d : FlashcardDeck) : Prop :=
  ∀ p ∈ d.cards, 0 < p.2.metadata.times_reviewed → p.2.metadata.last_reviewed.isSome

instance (d : FlashcardDeck) : Decidable (CountInv d) := by
  unfold CountInv; infer_instance

instance (d : FlashcardDeck) : Decidable (LastReviewedInv d) := by
  unfold LastReviewedInv; infer_instance

/-- A concrete operation sequence: three adds with one interleaved delete. -/
def demoOps : List DeckOp :=
  [DeckOp.add "2+2?" "4", DeckOp.add "3+3?" "6", DeckOp.del 1, DeckOp.add "5+5?" "10"]

/-- Card 1 of `demo2`. -/
def demoCard1 : Flashcard :=
  { id := 1, question := "2+2?", answer := "4"
    metadata := { difficulty := Difficulty.Hard, times_reviewed := 1
                  correct_count := 0, last_reviewed := some "2024-05-01" } }

/-- Card 1 of `demo2` after one further correct review rated Easy. -/
def demoCard1Easy : Flashcard :=
  { id := 1, question := "2+2?", answer := "4"
    metadata := { difficulty := Difficulty.Easy, times_reviewed := 2
                  correct_count := 1, last_reviewed := some "2024-06-01" } }

/-- Decimal digit to its character. -/
def digitChar (d : Nat) : Char := Char.ofNat (48 + d)

/-- Digit characters of `n`, most significant first; the first argument is
    structural fuel, with any `fuel ≥ n` giving the exact digits. -/
def natToStringAux : Nat → Nat → List Char
  | 0, _ => []
  | fuel + 1, n =>
    if n = 0 then [] else natToStringAux fuel (n / 10) ++ [digitChar (n % 10)]

/-- Decimal rendering of an unsigned integer, as serde writes `u32` map keys. -/
def natToString (n : Nat) : String :=
  if n = 0 then "0" else String.mk (natToStringAux n n)

/-- Decimal digit character test. -/
def isDigitChar (c : Char) : Bool := 48 ≤ c.toNat && c.toNat ≤ 57

/-- Value of a decimal digit character. -/
def charDigitVal (c : Char) : Nat := c.toNat - 48

/-- Value of a most-significant-first digit-character list. -/
def digitsToNat (cs : List Char) : Nat :=
  cs.foldl (fun acc c => acc * 10 + charDigitVal c) 0

/-- Decimal parsing of a serialized map key back to an unsigned integer. -/
def stringToNat? (s : String) : Option Nat :=
  if !s.data.isEmpty && s.data.all isDigitChar then some (digitsToNat s.data) else none

/-- The JSON documents the deck serializer produces (the fragment of
    `serde_json::Value` needed here). -/
inductive Json where
  | null
  | str (s : String)
  | num (n : Nat)
  | obj (fields : List (String × Json))

/-- Field lookup in a JSON object's field list. -/
def lookupS (k : String) : List (String × Json) → Option Json
  | [] => none
  | (k', v) :: rest => if k' = k then some v else lookupS k rest

/-- Field access on a JSON value. -/
def Json.getField (j : Json) (field : String) : Option Json :=
  match j with
  | Json.obj fields => lookupS field fields
  | _ => none

/-- Serde's serialization of the `Difficulty` unit variants. -/
def encodeDifficulty : Difficulty → Json
  | Difficulty.Easy => Json.str "Easy"
  | Difficulty.Medium => Json.str "Medium"
  | Difficulty.Hard => Json.str "Hard"

/-- Serde's serialization of `Option<String>`: `None` becomes `null`. -/
def encodeOptString : Option String → Json
  | none => Json.null
  | some s => Json.str s

/-- The JSON object serde produces for `CardMetadata`. -/
def encodeMetadata (m : CardMetadata) : Json :=
  Json.obj
    [("difficulty", encodeDifficulty m.difficulty),
     ("times_reviewed", Json.num m.times_reviewed),
     ("correct_count", Json.num m.correct_count),
     ("last_reviewed", encodeOptString m.last_reviewed)]

/-- The JSON object serde produces for `Flashcard`. -/
def encodeFlashcard (c : Flashcard) : Json :=
  Json.obj
    [("id", Json.num c.id),
     ("question", Json.str c.question),
     ("answer", Json.str c.answer),
     ("metadata", encodeMetadata c.metadata)]

/-- Source `FlashcardDeck::save_to_file` up to the byte layer: the JSON
    document `serde_json::to_string_pretty` renders for the deck, with the
    map keys written in decimal. -/
def save_to_file (d : FlashcardDeck) : Json :=
  Json.obj
    [("cards", Json.obj (d.cards.map (fun p => (natToString p.1, encodeFlashcard p.2)))),
     ("next_id", Json.num d.next_id)]

/-- Deserialization of a `Difficulty` value (unknown variants fail). -/
def decodeDifficulty : Json → Option Difficulty
  | Json.str s =>
    if s = "Easy" then some Difficulty.Easy
    else if s = "Medium" then some Difficulty.Medium
    else if s = "Hard" then some Difficulty.Hard
    else none
  | _ => none

/-- Deserialization of an unsigned number. -/
def decodeNum : Json → Option Nat
  | Json.num n => some n
  | _ => none

/-- Deserialization of a string. -/
def decodeStr : Json → Option String
  | Json.str s => some s
  | _ => none

/-- Deserialization of `Option<String>`: `null` yields `None`. -/
def decodeOptStr : Json → Option (Option String)
  | Json.null => some none
  | Json.str s => some (some s)
  | _ => none

/-- Deserialization of `CardMetadata`; a missing `last_reviewed` field also
    yields `None`, as serde allows for `Option` fields. -/
def decodeMetadata (j : Json) : Option CardMetadata := do
  let difficulty ← decodeDifficulty (← j.getField "difficulty")
  let times_reviewed ← decodeNum (← j.getField "times_reviewed")
  let correct_count ← decodeNum (← j.getField "correct_count")
  let last_reviewed ←
    match j.getField "last_reviewed" with
    | none => some none
    | some f => decodeOptStr f
  some { difficulty := difficulty, times_reviewed := times_reviewed
         correct_count := correct_count, last_reviewed := last_reviewed }

/-- Deserialization of a `Flashcard`. -/
def decodeFlashcard (j : Json) : Option Flashcard := do
  let id ← decodeNum (← j.getField "id")
  let question ← decodeStr (← j.getField "question")
  let answer ← decodeStr (← j.getField "answer")
  let metadata ← decodeMetadata (← j.getField "metadata")
  some { id := id, question := question, answer := answer, metadata := metadata }

/-- Deserialization of one cards-map entry: decimal key plus card value. -/
def decodeEntry (p : String × Json) : Option (Nat × Flashcard) := do
  let k ← stringToNat? p.1
  let c ← decodeFlashcard p.2
  some (k, c)

/-- Deserialization of the cards map: entries are decoded in order and
    inserted into an initially empty map, as serde's map visitor does. -/
def decodeCards :
    List (String × Json) → List (Nat × Flashcard) → Option (List (Nat × Flashcard))
  | [], acc => some acc
  | p :: rest, acc => do
    let e ← decodeEntry p
    decodeCards rest (insertA e.1 e.2 acc)

/-- Source `FlashcardDeck::load_from_file` up to the byte layer: decoding the
    JSON document back into a deck, as serde's derived deserializer does. -/
def load_from_file (j : Json) : Option FlashcardDeck := do
  let cardsField ← j.getField "cards"
  let entries ←
    match cardsField with
    | Json.obj fields => some fields
    | _ => none
  let cards ← decodeCards entries []
  let next_id ← decodeNum (← j.getField "next_id")
  some { cards := cards, next_id := next_id }

/-- A one-card deck whose `next_id` exceeds every present id by more than one,
    as after deleting cards 1 and 3. -/
def demoGap : FlashcardDeck :=
  { cards := [(2, { id := 2, question := "3+3?", answer := "6"
                    metadata := CardMetadata.default })]
    next_id := 4 }

/-! Association-list lemmas shared by the claims. -/

theorem lookupA_insertA_self (k : Nat) (v : Flashcard) (l : List (Nat × Flashcard)) :
    lookupA k (insertA k v l) = some v := by
  induction l with
  | nil => simp [insertA, lookupA]
  | cons p rest ih =>
    by_cases h : p.1 = k
    · simp [insertA, lookupA, h]
    · simp [insertA, lookupA, h, ih]

theorem lookupA_insertA_ne (k k' : Nat) (v : Flashcard) (l : List (Nat × Flashcard))
    (h : k' ≠ k) : lookupA k' (insertA k v l) = lookupA k' l := by
  induction l with
  | nil => simp [insertA, lookupA, Ne.symm h]
  | cons p rest ih =>
    obtain ⟨a, b⟩ := p
    by_cases ha : a = k
    · subst ha
      simp [insertA, lookupA, Ne.symm h]
    · simp [insertA, lookupA, ha, ih]

theorem mem_insertA (k : Nat) (v : Flashcard) (l : List (Nat × Flashcard))
    (p : Nat × Flashcard) (h : p ∈ insertA k v l) : p = (k, v) ∨ p ∈ l := by
  induction l with
  | nil =>
    simp [insertA] at h
    exact Or.inl h
  | cons q rest ih =>
    by_cases hq : q.1 = k
    · simp only [insertA, hq, if_pos rfl] at h
      rcases List.mem_cons.1 h with h | h
      · exact Or.inl h
      · exact Or.inr (List.mem_cons_of_mem _ h)
    · simp only [insertA, hq, if_neg hq] at h
      rcases List.mem_cons.1 h with h | h
      · exact Or.inr (h ▸ List.mem_cons_self _ _)
      · rcases ih h with h | h
        · exact Or.inl h
        · exact Or.inr (List.mem_cons_of_mem _ h)

theorem mem_eraseA (k : Nat) (l : List (Nat × Flashcard)) (p : Nat × Flashcard)
    (h : p ∈ eraseA k l) : p ∈ l := by
  induction l with
  | nil => simp [eraseA] at h
  | cons q rest ih =>
    by_cases hq : q.1 = k
    · simp only [eraseA, if_pos hq] at h
      exact List.mem_cons_of_mem _ h
    · simp only [eraseA, if_neg hq] at h
      rcases List.mem_cons.1 h with h | h
      · exact h ▸ List.mem_cons_self _ _
      · exact List.mem_cons_of_mem _ (ih h)

theorem lookupA_modifyA_self (k : Nat) (f : Flashcard → Flashcard)
    (l : List (Nat × Flashcard)) :
    lookupA k (modifyA k f l) = (lookupA k l).map f := by
  induction l with
  | nil => simp [modifyA, lookupA]
  | cons p rest ih =>
    by_cases h : p.1 = k
    · simp [modifyA, lookupA, h]
    · simp [modifyA, lookupA, h, ih]

theorem lookupA_modifyA_ne (k k' : Nat) (f : Flashcard → Flashcard)
    (l : List (Nat × Flashcard)) (h : k' ≠ k) :
    lookupA k' (modifyA k f l) = lookupA k' l := by
  induction l with
  | nil => simp [modifyA, lookupA]
  | cons p rest ih =>
    obtain ⟨a, b⟩ := p
    by_cases ha : a = k
    · subst ha
      simp [modifyA, lookupA, Ne.symm h]
    · simp [modifyA, lookupA, ha, ih]

theorem modifyA_of_lookupA_none (k : Nat) (f : Flashcard → Flashcard)
    (l : List (Nat × Flashcard)) (h : lookupA k l = none) : modifyA k f l = l := by
  induction l with
  | nil => simp [modifyA]
  | cons p rest ih =>
    by_cases hp : p.1 = k
    · simp [lookupA, hp] at h
    · simp only [lookupA, if_neg hp] at h
      simp [modifyA, hp, ih h]

theorem map_fst_modifyA (k : Nat) (f : Flashcard → Flashcard)
    (l : List (Nat × Flashcard)) :
    (modifyA k f l).map Prod.fst = l.map Prod.fst := by
  induction l with
  | nil => simp [modifyA]
  | cons p rest ih =>
    by_cases hp : p.1 = k
    · simp [modifyA, hp]
    · simp [modifyA, hp, ih]

theorem mem_modifyA (k : Nat) (f : Flashcard → Flashcard) (l : List (Nat × Flashcard))
    (p : Nat × Flashcard) (h : p ∈ modifyA k f l) :
    p ∈ l ∨ ∃ v, (k, v) ∈ l ∧ p = (k, f v) := by
  induction l with
  | nil => simp [modifyA] at h
  | cons q rest ih =>
    by_cases hq : q.1 = k
    · simp only [modifyA, if_pos hq] at h
      rcases List.mem_cons.1 h with h | h
      · refine Or.inr ⟨q.2, ?_, ?_⟩
        · subst hq; exact List.mem_cons_self _ _
        · subst hq; exact h
      · exact Or.inl (List.mem_cons_of_mem _ h)
    · simp only [modifyA, if_neg hq] at h
      rcases List.mem_cons.1 h with h | h
      · exact Or.inl (h ▸ List.mem_cons_self _ _)
      · rcases ih h with h | ⟨v, hv, hp⟩
        · exact Or.inl (List.mem_cons_of_mem _ h)
        · exact Or.inr ⟨v, List.mem_cons_of_mem _ hv, hp⟩

theorem lookupA_map_value (k : Nat) (g : Flashcard → Flashcard)
    (l : List (Nat × Flashcard)) :
    lookupA k (l.map (fun p => (p.1, g p.2))) = (lookupA k l).map g := by
  induction l with
  | nil => simp [lookupA]
  | cons p rest ih =>
    by_cases h : p.1 = k
    · simp [lookupA, h]
    · simp [lookupA, h, ih]

theorem lookupA_isSome_of_mem_keys (k : Nat) (l : List (Nat × Flashcard))
    (h : k ∈ l.map Prod.fst) : (lookupA k l).isSome := by
  induction l with
  | nil => simp at h
  | cons p rest ih =>
    obtain ⟨a, b⟩ := p
    by_cases ha : a = k
    · simp [lookupA, ha]
    · have hk : k ∈ rest.map Prod.fst := by
        simp only [List.map_cons, List.mem_cons] at h
        rcases h with h | h
        · exact absurd h.symm ha
        · exact h
      simpa [lookupA, ha] using ih hk

/-- Claim C2: `update_card_difficulty` is a no-op on an absent id; on a
    present id it overwrites the difficulty, increments `times_reviewed` by
    exactly 1, increments `correct_count` by 1 exactly when `correct`, stamps
    `last_reviewed` with the current date, and changes nothing else: not the
    card's id, question or answer, not any other card, not the key set, and
    not `next_id`. -/
theorem update_card_difficulty_spec (d : FlashcardDeck) (id : Nat)
    (diff : Difficulty) (correct : Bool) (today : String) :
    (d.get_card id = none → d.update_card_difficulty id diff correct today = d) ∧
    (∀ card, d.get_card id = some card →
      (d.update_card_difficulty id diff correct today).get_card id = some
        { card with metadata :=
          { difficulty := diff
            times_reviewed := card.metadata.times_reviewed + 1
            correct_count := card.metadata.correct_count + (if correct then 1 else 0)
            last_reviewed := some today } }) ∧
    (∀ k, k ≠ id → (d.update_card_difficulty id diff correct today).get_card k = d.get_card k) ∧
    (d.update_card_difficulty id diff correct today).next_id = d.next_id ∧
    (d.update_card_difficulty id diff correct today).cards.map Prod.fst = d.cards.map Prod.fst := by
  refine ⟨?_, ?_, ?_, rfl, map_fst_modifyA _ _ _⟩
  · intro h
    show ({ d with cards := modifyA id _ d.cards } : FlashcardDeck) = d
    rw [modifyA_of_lookupA_none _ _ _ h]
  · intro card h
    show lookupA id (modifyA id _ d.cards) = _
    rw [lookupA_modifyA_self]
    unfold FlashcardDeck.get_card at h
    rw [h]
    rfl
  · intro k hk
    show lookupA k (modifyA id _ d.cards) = lookupA k d.cards
    exact lookupA_modifyA_ne _ _ _ _ hk

/-- Concrete instantiation of the C2 contract at a two-card deck. -/
theorem update_card_difficulty_spec_witness :
    ((demo2 : FlashcardDeck).get_card 7 = none →
      demo2.update_card_difficulty 7 Difficulty.Easy true "2024-05-01" = demo2) ∧
    (demo2.update_card_difficulty 7 Difficulty.Easy true "2024-05-01").get_card 2 =
      demo2.get_card 2 :=
  ⟨(update_card_difficulty_spec demo2 7 Difficulty.Easy true "2024-05-01").1,
   (update_card_difficulty_spec demo2 7 Difficulty.Easy true "2024-05-01").2.2.1 2 (by decide)⟩

/-- Claim C5: `reset_all_stats` keeps `next_id` and the key set, replaces the
    metadata of every card by the default metadata, and leaves every card's
    id, question and answer in place; the default metadata is difficulty
    Medium, both counters 0, and no last-review date. -/
theorem reset_all_stats_spec (d : FlashcardDeck) :
    (d.reset_all_stats).next_id = d.next_id ∧
    (d.reset_all_stats).cards.map Prod.fst = d.cards.map Prod.fst ∧
    (∀ id : Nat, (d.reset_all_stats).get_card id =
      (d.get_card id).map (fun c => { c with metadata := CardMetadata.default })) ∧
    CardMetadata.default =
      { difficulty := Difficulty.Medium, times_reviewed := 0, correct_count := 0
        last_reviewed := none } := by
  refine ⟨rfl, by simp [FlashcardDeck.reset_all_stats], ?_, rfl⟩
  intro id
  exact lookupA_map_value id (fun c => { c with metadata := CardMetadata.default }) d.cards

/-! Permutation lemmas for the shuffle. -/

theorem getElem_cons_set_perm {α : Type} :
    ∀ (t : List α) (m : Nat) (h : m < t.length) (a : α),
      (t[m] :: t.set m a).Perm (a :: t) := by
  intro t
  induction t with
  | nil =>
    intro m h a
    simp at h
  | cons b t ih =>
    intro m h a
    match m with
    | 0 => simpa using List.Perm.swap a b t
    | k + 1 =>
      have hk : k < t.length := by simpa using h
      have step1 : (t[k] :: b :: t.set k a).Perm (b :: t[k] :: t.set k a) :=
        List.Perm.swap b (t[k]) (t.set k a)
      have step2 : (b :: t[k] :: t.set k a).Perm (b :: a :: t) :=
        List.Perm.cons b (ih k hk a)
      have step3 : (b :: a :: t).Perm (a :: b :: t) := List.Perm.swap a b t
      simpa using (step1.trans step2).trans step3

theorem set_set_perm {α : Type} :
    ∀ (l : List α) (i j : Nat) (hi : i < l.length) (hj : j < l.length),
      ((l.set i l[j]).set j l[i]).Perm l := by
  intro l
  induction l with
  | nil =>
    intro i j hi hj
    simp at hi
  | cons a t ih =>
    intro i j hi hj
    match i, j with
    | 0, 0 => simp
    | 0, m + 1 =>
      have hm : m < t.length := by simpa using hj
      simpa using getElem_cons_set_perm t m hm a
    | n + 1, 0 =>
      have hn : n < t.length := by simpa using hi
      simpa using getElem_cons_set_perm t n hn a
    | n + 1, m + 1 =>
      have hn : n < t.length := by simpa using hi
      have hm : m < t.length := by simpa using hj
      simpa using List.Perm.cons a (ih n m hn hm)

theorem swapIdx_perm {α : Type} (l : List α) (i j : Nat) : (swapIdx l i j).Perm l := by
  unfold swapIdx
  split
  · next x y hx hy =>
    obtain ⟨hi, hx⟩ := List.getElem?_eq_some.1 hx
    obtain ⟨hj, hy⟩ := List.getElem?_eq_some.1 hy
    subst hx
    subst hy
    exact set_set_perm l i j hi hj
  · exact List.Perm.refl l

theorem shuffleAux_perm {α : Type} (g : Nat → Nat) :
    ∀ (n : Nat) (l : List α), (shuffleAux g n l).Perm l := by
  intro n
  induction n with
  | zero => intro l; exact List.Perm.refl l
  | succ i ih =>
    intro l
    exact (ih _).trans (swapIdx_perm l (i + 1) (g (i + 1) % (i + 2)))

/-- Claim C6: for any deck and any behaviour of the random source, the
    returned sequence is a permutation of exactly the current card ids: same
    length as the deck, empty for the empty deck, and (keys being distinct)
    every current id occurs exactly once. -/
theorem get_random_cards_ids_perm (d : FlashcardDeck) (g : Nat → Nat) :
    (d.get_random_cards_ids g).Perm (d.cards.map Prod.fst) ∧
    (d.get_random_cards_ids g).length = d.cards.length ∧
    (d.cards = [] → d.get_random_cards_ids g = []) ∧
    (d.WF → ∀ k ∈ d.cards.map Prod.fst, (d.get_random_cards_ids g).count k = 1) := by
  have hp : (d.get_random_cards_ids g).Perm (d.cards.map Prod.fst) :=
    shuffleAux_perm g _ _
  refine ⟨hp, ?_, ?_, ?_⟩
  · simpa using hp.length_eq
  · intro h
    have : d.cards.map Prod.fst = [] := by simp [h]
    exact (this ▸ hp).eq_nil
  · intro hwf k hk
    rw [hp.count_eq k]
    exact List.count_eq_one_of_mem hwf hk

/-- Concrete instantiation of the C6 permutation property. -/
theorem get_random_cards_ids_perm_witness :
    FlashcardDeck.new.get_random_cards_ids (fun n => n) = [] ∧
    (demo2.get_random_cards_ids (fun n => n + 1)).count 1 = 1 :=
  ⟨(get_random_cards_ids_perm FlashcardDeck.new (fun n => n)).2.2.1 rfl,
   (get_random_cards_ids_perm demo2 (fun n => n + 1)).2.2.2 (by decide) 1 (by decide)⟩

/-! Quiz-loop lemmas. -/

theorem readRating_cons_invalid (line : String) (h : parseRating line = none)
    (input : List String) : readRating (line :: input) = readRating input := by
  simp [readRating, h]

theorem readRating_replicate_invalid (line : String) (h : parseRating line = none) :
    ∀ (n : Nat) (input : List String),
      readRating (List.replicate n line ++ input) = readRating input := by
  intro n
  induction n with
  | zero => intro input; rfl
  | succ m ih =>
    intro input
    rw [List.replicate_succ, List.cons_append, readRating_cons_invalid line h, ih]

/-- Claim C7: whenever the rating phase of the current card yields `q`, the
    session ends at once with the counts accumulated strictly before this
    card: the deck is returned exactly as it was when the card was presented
    (no `update_card_difficulty` for it), the current card is excluded from
    the attempted count, and the remaining cards are never visited. -/
theorem quiz_quit_spec (today : String) (id : Nat) (rest : List Nat) (qc cc : Nat)
    (deck : FlashcardDeck) (ack : String) (input1 input2 : List String)
    (hcard : (deck.get_card id).isSome)
    (hq : readRating input1 = some (Rating.q, input2)) :
    quizLoop today (id :: rest) qc cc deck (ack :: input1) = QuizResult.ok deck qc cc := by
  obtain ⟨card, hc⟩ := Option.isSome_iff_exists.1 hcard
  simp [quizLoop, hc, hq]

/-- Concrete C7 scenario: two fresh cards, first rated `w`, `q` entered on the
    second; the summary is 0 correct of 1 attempted and only the first card's
    statistics changed. -/
theorem quiz_quit_spec_witness :
    quizLoop "2024-05-01" [2] 1 0 demo2 ["", "q"] = QuizResult.ok demo2 1 0 ∧
    runQuiz demoFresh (fun _ => 1) "2024-05-01" ["", "w", "", "q"] =
      QuizResult.ok demo2 1 0 :=
  ⟨quiz_quit_spec "2024-05-01" 2 [] 1 0 demo2 "" ["q"] [] (by decide) rfl, by decide⟩

/-- Claim C8: a rating line is compared only through its normalised (trimmed,
    lowercased) form, and any line whose normalised form is outside
    `c`/`g`/`w`/`q` parses as no rating, so any number of such lines is
    skipped by the rating phase: the loop stays at the same card with the same
    counters and the deck untouched. -/
theorem invalid_rating_spec :
    (∀ s1 s2 : String, normalizeLine s1 = normalizeLine s2 → parseRating s1 = parseRating s2) ∧
    (∀ line : String, normalizeLine line ∉ (["c", "g", "w", "q"] : List String) →
      parseRating line = none ∧
      (∀ (n : Nat) (input : List String),
        readRating (List.replicate n line ++ input) = readRating input) ∧
      (∀ (today : String) (order : List Nat) (qc cc : Nat) (deck : FlashcardDeck)
        (ack : String) (n : Nat) (input : List String),
        quizLoop today order qc cc deck (ack :: (List.replicate n line ++ input)) =
          quizLoop today order qc cc deck (ack :: input))) := by
  constructor
  · intro s1 s2 h
    unfold parseRating
    rw [h]
  · intro line h
    simp only [List.mem_cons, List.not_mem_nil, or_false, not_or] at h
    obtain ⟨h1, h2, h3, h4⟩ := h
    have hnone : parseRating line = none := by
      simp [parseRating, ratingFromKey, h1, h2, h3, h4]
    refine ⟨hnone, readRating_replicate_invalid line hnone, ?_⟩
    intro today order qc cc deck ack n input
    cases order with
    | nil => rfl
    | cons id rest =>
      cases hc : deck.get_card id with
      | none => simp [quizLoop, hc]
      | some card => simp [quizLoop, hc, readRating_replicate_invalid line hnone]

/-- Concrete instantiation of the C8 invalid-input behaviour, together with
    case-insensitivity examples of the normalised comparison. -/
theorem invalid_rating_spec_witness :
    normalizeLine "x" ∉ (["c", "g", "w", "q"] : List String) ∧
    parseRating "x" = none ∧
    quizLoop "2024-05-01" [1, 2] 0 0 demoFresh ("" :: (List.replicate 3 "x" ++ ["q"])) =
      quizLoop "2024-05-01" [1, 2] 0 0 demoFresh ["", "q"] ∧
    parseRating "C" = some Rating.c ∧
    parseRating " Q " = some Rating.q :=
  ⟨by decide,
   ((invalid_rating_spec.2 "x" (by decide)).1),
   (invalid_rating_spec.2 "x" (by decide)).2.2 "2024-05-01" [1, 2] 0 0 demoFresh "" 3 ["q"],
   by decide, by decide⟩

theorem update_get_card_isSome (d : FlashcardDeck) (id k : Nat) (diff : Difficulty)
    (correct : Bool) (today : String) :
    ((d.update_card_difficulty id diff correct today).get_card k).isSome =
      (d.get_card k).isSome := by
  by_cases hk : k = id
  · subst hk
    show (lookupA k (modifyA k _ d.cards)).isSome = _
    rw [lookupA_modifyA_self]
    simp [FlashcardDeck.get_card]
  · show (lookupA k (modifyA id _ d.cards)).isSome = _
    rw [lookupA_modifyA_ne _ _ _ _ hk]
    rfl

theorem quizLoop_no_panic (today : String) :
    ∀ (order : List Nat) (qc cc : Nat) (deck : FlashcardDeck) (input : List String),
      (∀ id ∈ order, (deck.get_card id).isSome) →
      quizLoop today order qc cc deck input ≠ QuizResult.panicked := by
  intro order
  induction order with
  | nil =>
    intro qc cc deck input _
    simp [quizLoop]
  | cons id rest ih =>
    intro qc cc deck input h
    obtain ⟨card, hc⟩ :=
      Option.isSome_iff_exists.1 (h id (List.mem_cons_self _ _))
    have hrest : ∀ (diff : Difficulty) (correct : Bool) (id' : Nat), id' ∈ rest →
        ((deck.update_card_difficulty id diff correct today).get_card id').isSome := by
      intro diff correct id' hid'
      rw [update_get_card_isSome]
      exact h id' (List.mem_cons_of_mem _ hid')
    cases input with
    | nil => simp [quizLoop, hc]
    | cons ack input1 =>
      cases hr : readRating input1 with
      | none => simp [quizLoop, hc, hr]
      | some p =>
        obtain ⟨r, input2⟩ := p
        cases r with
        | c => simpa [quizLoop, hc, hr] using ih _ _ _ _ (hrest Difficulty.Easy true)
        | g => simpa [quizLoop, hc, hr] using ih _ _ _ _ (hrest Difficulty.Medium true)
        | w => simpa [quizLoop, hc, hr] using ih _ _ _ _ (hrest Difficulty.Hard false)
        | q => simp [quizLoop, hc, hr]

/-- Claim C9: the map index `deck.cards[&card_id]` inside `run_quiz` can never
    fail: every iterated id comes from the deck's own key set, and the quiz
    loop never removes a card, so for every deck, random source and input the
    run never reaches the panic outcome. -/
theorem quiz_lookup_safe (deck : FlashcardDeck) (g : Nat → Nat) (today : String)
    (input : List String) : runQuiz deck g today input ≠ QuizResult.panicked := by
  apply quizLoop_no_panic
  intro id hid
  apply lookupA_isSome_of_mem_keys
  exact (shuffleAux_perm g _ _).mem_iff.1 hid

/-! Operation-sequence lemmas. -/

theorem runOps_fst (d : FlashcardDeck) (op : DeckOp) (rest : List DeckOp) :
    (runOps d (op :: rest)).1 = (runOps (applyOp d op) rest).1 := by
  cases op <;> rfl

theorem runOps_ids (ops : List DeckOp) : ∀ d : FlashcardDeck,
    (runOps d ops).2 = List.range' d.next_id (countAdds ops) ∧
    (runOps d ops).1.next_id = d.next_id + countAdds ops := by
  induction ops with
  | nil =>
    intro d
    simp [runOps, countAdds]
  | cons op rest ih =>
    intro d
    cases op with
    | add q a =>
      obtain ⟨h1, h2⟩ := ih (d.add_card q a).2
      constructor
      · show (d.add_card q a).1 :: (runOps (d.add_card q a).2 rest).2 = _
        rw [h1]
        show d.next_id :: List.range' (d.next_id + 1) (countAdds rest) =
          List.range' d.next_id (countAdds rest + 1)
        simp [List.range']
      · show (runOps (d.add_card q a).2 rest).1.next_id = d.next_id + (countAdds rest + 1)
        rw [h2]
        show d.next_id + 1 + countAdds rest = _
        omega
    | del id =>
      obtain ⟨h1, h2⟩ := ih (d.delete_card id).2
      exact ⟨h1, h2⟩
    | update id diff c today =>
      obtain ⟨h1, h2⟩ := ih (d.update_card_difficulty id diff c today)
      exact ⟨h1, h2⟩
    | reset =>
      obtain ⟨h1, h2⟩ := ih d.reset_all_stats
      exact ⟨h1, h2⟩

theorem idsBelow_applyOp (d : FlashcardDeck) (op : DeckOp) (h : idsBelow d) :
    idsBelow (applyOp d op) := by
  cases op with
  | add q a =>
    intro k hk
    simp only [applyOp, FlashcardDeck.add_card] at hk
    obtain ⟨p, hp, rfl⟩ := List.mem_map.1 hk
    rcases mem_insertA _ _ _ _ hp with h1 | h1
    · subst h1
      show d.next_id < (d.add_card q a).2.next_id
      simp [FlashcardDeck.add_card]
    · have : p.1 < d.next_id := h p.1 (List.mem_map_of_mem Prod.fst h1)
      show p.1 < d.next_id + 1
      omega
  | del id =>
    intro k hk
    obtain ⟨p, hp, rfl⟩ := List.mem_map.1 hk
    exact h p.1 (List.mem_map_of_mem Prod.fst (mem_eraseA _ _ _ hp))
  | update id diff c today =>
    intro k hk
    rw [show (applyOp d (DeckOp.update id diff c today)).cards =
      modifyA id _ d.cards from rfl, map_fst_modifyA] at hk
    exact h k hk
  | reset =>
    intro k hk
    simp only [applyOp, FlashcardDeck.reset_all_stats, List.map_map] at hk
    exact h k (by simpa using hk)

theorem idsBelow_runOps (ops : List DeckOp) : ∀ d : FlashcardDeck,
    idsBelow d → idsBelow (runOps d ops).1 := by
  induction ops with
  | nil => intro d h; exact h
  | cons op rest ih =>
    intro d h
    rw [runOps_fst]
    exact ih _ (idsBelow_applyOp d op h)

/-- Claim C3: `add_card` returns the current `next_id` and bumps it by exactly
    one; `delete_card` never changes `next_id`; and over any operation
    sequence from a fresh deck the returned ids are exactly `1, 2, 3, …` in
    order (consecutive, never repeating), every returned or still-present id
    staying strictly below the final `next_id`. -/
theorem add_ids_monotone :
    (∀ (d : FlashcardDeck) (q a : String),
      (d.add_card q a).1 = d.next_id ∧ (d.add_card q a).2.next_id = d.next_id + 1) ∧
    (∀ (d : FlashcardDeck) (id : Nat), (d.delete_card id).2.next_id = d.next_id) ∧
    (∀ ops : List DeckOp,
      (runOps FlashcardDeck.new ops).2 = List.range' 1 (countAdds ops) ∧
      (runOps FlashcardDeck.new ops).1.next_id = 1 + countAdds ops ∧
      (runOps FlashcardDeck.new ops).2.Nodup ∧
      (∀ k ∈ (runOps FlashcardDeck.new ops).2,
        k < (runOps FlashcardDeck.new ops).1.next_id) ∧
      (∀ k ∈ (runOps FlashcardDeck.new ops).1.cards.map Prod.fst,
        k < (runOps FlashcardDeck.new ops).1.next_id)) := by
  refine ⟨fun d q a => ⟨rfl, rfl⟩, fun d id => rfl, fun ops => ?_⟩
  obtain ⟨h1, h2⟩ := runOps_ids ops FlashcardDeck.new
  refine ⟨h1, h2, ?_, ?_, ?_⟩
  · rw [h1]
    exact List.nodup_range' _ _
  · intro k hk
    rw [h1] at hk
    rw [h2]
    exact (List.mem_range'_1.1 hk).2
  · exact idsBelow_runOps ops FlashcardDeck.new (by intro k hk; simp [FlashcardDeck.new] at hk)

/-- Concrete instantiation of C3 on three adds with an interleaved delete. -/
theorem add_ids_monotone_witness :
    (FlashcardDeck.new.add_card "2+2?" "4").1 = 1 ∧
    (runOps FlashcardDeck.new demoOps).2 = List.range' 1 3 ∧
    (2 : Nat) < (runOps FlashcardDeck.new demoOps).1.next_id :=
  ⟨(add_ids_monotone.1 FlashcardDeck.new "2+2?" "4").1,
   (add_ids_monotone.2.2 demoOps).1,
   (add_ids_monotone.2.2 demoOps).2.2.2.1 2 (by decide)⟩

theorem countInv_applyOp (d : FlashcardDeck) (op : DeckOp) (h : CountInv d) :
    CountInv (applyOp d op) := by
  cases op with
  | add q a =>
    intro p hp
    simp only [applyOp, FlashcardDeck.add_card] at hp
    rcases mem_insertA _ _ _ _ hp with h1 | h1
    · subst h1
      simp [CardMetadata.default]
    · exact h p h1
  | del id =>
    intro p hp
    exact h p (mem_eraseA _ _ _ hp)
  | update id diff c today =>
    intro p hp
    rcases mem_modifyA _ _ _ _ hp with h1 | ⟨v, hv, rfl⟩
    · exact h p h1
    · have hb := h (id, v) hv
      simp only at hb ⊢
      cases c <;> simp <;> omega
  | reset =>
    intro p hp
    simp only [applyOp, FlashcardDeck.reset_all_stats] at hp
    obtain ⟨q, hq, rfl⟩ := List.mem_map.1 hp
    simp [CardMetadata.default]

theorem countInv_runOps (ops : List DeckOp) : ∀ d : FlashcardDeck,
    CountInv d → CountInv (runOps d ops).1 := by
  induction ops with
  | nil => intro d h; exact h
  | cons op rest ih =>
    intro d h
    rw [runOps_fst]
    exact ih _ (countInv_applyOp d op h)

/-- Claim C4: `correct_count ≤ times_reviewed` holds for a fresh deck, is
    preserved by every deck operation (so it holds along every operation
    sequence), and `update_card_difficulty` never decreases a card's
    `correct_count`. -/
theorem correct_count_le_times_reviewed :
    CountInv FlashcardDeck.new ∧
    (∀ (d : FlashcardDeck) (op : DeckOp), CountInv d → CountInv (applyOp d op)) ∧
    (∀ ops : List DeckOp, CountInv (runOps FlashcardDeck.new ops).1) ∧
    (∀ (d : FlashcardDeck) (id k : Nat) (diff : Difficulty) (correct : Bool)
      (today : String) (card card' : Flashcard),
      d.get_card k = some card →
      (d.update_card_difficulty id diff correct today).get_card k = some card' →
      card.metadata.correct_count ≤ card'.metadata.correct_count) := by
  refine ⟨?_, countInv_applyOp, ?_, ?_⟩
  · intro p hp
    simp [FlashcardDeck.new] at hp
  · intro ops
    exact countInv_runOps ops FlashcardDeck.new (by intro p hp; simp [FlashcardDeck.new] at hp)
  · intro d id k diff correct today card card' h1 h2
    by_cases hk : k = id
    · subst hk
      rw [show (d.update_card_difficulty k diff correct today).get_card k =
        lookupA k (modifyA k _ d.cards) from rfl, lookupA_modifyA_self] at h2
      unfold FlashcardDeck.get_card at h1
      rw [h1] at h2
      injection h2 with h2
      subst h2
      show card.metadata.correct_count ≤
        card.metadata.correct_count + (if correct then 1 else 0)
      cases correct <;> simp
    · rw [show (d.update_card_difficulty id diff correct today).get_card k =
        lookupA k (modifyA id _ d.cards) from rfl,
        lookupA_modifyA_ne _ _ _ _ hk] at h2
      unfold FlashcardDeck.get_card at h1
      rw [h1] at h2
      injection h2 with h2
      subst h2
      exact Nat.le_refl _

/-- Concrete instantiation of C4: updating `demo2` preserves the counter bound
    and does not lower the reviewed card's `correct_count`. -/
theorem correct_count_le_times_reviewed_witness :
    CountInv (applyOp demo2 (DeckOp.update 1 Difficulty.Easy true "2024-06-01")) ∧
    demoCard1.metadata.correct_count ≤ demoCard1Easy.metadata.correct_count :=
  ⟨correct_count_le_times_reviewed.2.1 demo2
      (DeckOp.update 1 Difficulty.Easy true "2024-06-01") (by decide),
   correct_count_le_times_reviewed.2.2.2 demo2 1 1 Difficulty.Easy true "2024-06-01"
      demoCard1 demoCard1Easy (by decide) (by decide)⟩

theorem lastReviewedInv_applyOp (d : FlashcardDeck) (op : DeckOp)
    (h : LastReviewedInv d) : LastReviewedInv (applyOp d op) := by
  cases op with
  | add q a =>
    intro p hp
    simp only [applyOp, FlashcardDeck.add_card] at hp
    rcases mem_insertA _ _ _ _ hp with h1 | h1
    · subst h1
      simp [CardMetadata.default]
    · exact h p h1
  | del id =>
    intro p hp
    exact h p (mem_eraseA _ _ _ hp)
  | update id diff c today =>
    intro p hp
    rcases mem_modifyA _ _ _ _ hp with h1 | ⟨v, hv, rfl⟩
    · exact h p h1
    · intro _
      simp
  | reset =>
    intro p hp
    simp only [applyOp, FlashcardDeck.reset_all_stats] at hp
    obtain ⟨q, hq, rfl⟩ := List.mem_map.1 hp
    simp [CardMetadata.default]

theorem lastReviewedInv_runOps (ops : List DeckOp) : ∀ d : FlashcardDeck,
    LastReviewedInv d → LastReviewedInv (runOps d ops).1 := by
  induction ops with
  | nil => intro d h; exact h
  | cons op rest ih =>
    intro d h
    rw [runOps_fst]
    exact ih _ (lastReviewedInv_applyOp d op h)

/-- Claim C10: on every deck reachable from a fresh deck, a positive
    `times_reviewed` implies a present `last_reviewed`: the default metadata
    installed by `add_card` and `reset_all_stats` has zero reviews and no
    date, and every operation preserves the implication because
    `update_card_difficulty` stamps the date whenever it bumps the counter. -/
theorem last_reviewed_tracks_reviews :
    LastReviewedInv FlashcardDeck.new ∧
    CardMetadata.default.times_reviewed = 0 ∧
    CardMetadata.default.last_reviewed = none ∧
    (∀ (d : FlashcardDeck) (q a : String),
      (d.add_card q a).2.get_card d.next_id =
        some { id := d.next_id, question := q, answer := a
               metadata := CardMetadata.default }) ∧
    (∀ (d : FlashcardDeck) (p : Nat × Flashcard), p ∈ (d.reset_all_stats).cards →
      p.2.metadata = CardMetadata.default) ∧
    (∀ (d : FlashcardDeck) (op : DeckOp),
      LastReviewedInv d → LastReviewedInv (applyOp d op)) ∧
    (∀ ops : List DeckOp, LastReviewedInv (runOps FlashcardDeck.new ops).1) := by
  refine ⟨?_, rfl, rfl, ?_, ?_, lastReviewedInv_applyOp, ?_⟩
  · intro p hp
    simp [FlashcardDeck.new] at hp
  · intro d q a
    exact lookupA_insertA_self _ _ _
  · intro d p hp
    simp only [FlashcardDeck.reset_all_stats] at hp
    obtain ⟨q, hq, rfl⟩ := List.mem_map.1 hp
    rfl
  · intro ops
    exact lastReviewedInv_runOps ops FlashcardDeck.new
      (by intro p hp; simp [FlashcardDeck.new] at hp)

/-- Concrete instantiation of C10: the implication survives a further review
    of `demo2`, and a fresh add carries default metadata. -/
theorem last_reviewed_tracks_reviews_witness :
    LastReviewedInv (applyOp demo2 (DeckOp.update 2 Difficulty.Medium true "2024-06-01")) ∧
    (demo2.add_card "7-2?" "5").2.get_card 3 =
      some { id := 3, question := "7-2?", answer := "5", metadata := CardMetadata.default } :=
  ⟨last_reviewed_tracks_reviews.2.2.2.2.2.1 demo2
      (DeckOp.update 2 Difficulty.Medium true "2024-06-01") (by decide),
   last_reviewed_tracks_reviews.2.2.2.1 demo2 "7-2?" "5"⟩

/-! Decimal key codec lemmas. -/

theorem charDigitVal_digitChar : ∀ d : Nat, d < 10 → charDigitVal (digitChar d) = d := by
  decide

theorem isDigitChar_digitChar : ∀ d : Nat, d < 10 → isDigitChar (digitChar d) = true := by
  decide

theorem foldl_natToStringAux : ∀ (fuel n a : Nat), n ≤ fuel →
    (natToStringAux fuel n).foldl (fun acc c => acc * 10 + charDigitVal c) a =
      a * 10 ^ (natToStringAux fuel n).length + n := by
  intro fuel
  induction fuel with
  | zero =>
    intro n a h
    have hn : n = 0 := Nat.le_zero.1 h
    subst hn
    simp [natToStringAux]
  | succ fuel ih =>
    intro n a h
    by_cases hn : n = 0
    · subst hn
      simp [natToStringAux]
    · have hdiv : n / 10 ≤ fuel := by
        have := Nat.div_lt_self (Nat.pos_of_ne_zero hn) (by norm_num : (1 : Nat) < 10)
        omega
      have hmod : charDigitVal (digitChar (n % 10)) = n % 10 :=
        charDigitVal_digitChar _ (Nat.mod_lt _ (by norm_num))
      simp only [natToStringAux, if_neg hn, List.foldl_append, List.foldl_cons,
        List.foldl_nil, List.length_append, List.length_cons, List.length_nil,
        ih (n / 10) a hdiv, hmod]
      rw [Nat.right_distrib, Nat.add_assoc, Nat.mul_comm (n / 10) 10, Nat.div_add_mod,
        Nat.zero_add, pow_succ, Nat.mul_assoc]

theorem natToStringAux_digits : ∀ (fuel n : Nat), ∀ c ∈ natToStringAux fuel n,
    isDigitChar c = true := by
  intro fuel
  induction fuel with
  | zero =>
    intro n c hc
    simp [natToStringAux] at hc
  | succ fuel ih =>
    intro n c hc
    by_cases hn : n = 0
    · subst hn
      simp [natToStringAux] at hc
    · simp only [natToStringAux, if_neg hn, List.mem_append, List.mem_singleton] at hc
      rcases hc with hc | hc
      · exact ih _ c hc
      · subst hc
        exact isDigitChar_digitChar _ (Nat.mod_lt _ (by norm_num))

theorem natToStringAux_ne_nil (fuel n : Nat) (h0 : n ≠ 0) (h : n ≤ fuel) :
    natToStringAux fuel n ≠ [] := by
  cases fuel with
  | zero => exact absurd (Nat.le_zero.1 h) h0
  | succ fuel => simp [natToStringAux, h0]

theorem stringToNat_natToString (n : Nat) : stringToNat? (natToString n) = some n := by
  by_cases hn : n = 0
  · subst hn
    decide
  · have hne : natToStringAux n n ≠ [] := natToStringAux_ne_nil n n hn (Nat.le_refl n)
    have hall : (natToStringAux n n).all isDigitChar = true := by
      rw [List.all_eq_true]
      intro c hc
      exact natToStringAux_digits n n c hc
    have hempty : (natToStringAux n n).isEmpty = false := by
      cases hl : natToStringAux n n with
      | nil => exact absurd hl hne
      | cons c cs => rfl
    show stringToNat? (if n = 0 then "0" else String.mk (natToStringAux n n)) = some n
    rw [if_neg hn]
    show (if !(natToStringAux n n).isEmpty && (natToStringAux n n).all isDigitChar then
      some (digitsToNat (natToStringAux n n)) else none) = some n
    rw [hempty, hall]
    show some (digitsToNat (natToStringAux n n)) = some n
    unfold digitsToNat
    rw [foldl_natToStringAux n n 0 (Nat.le_refl n)]
    simp

/-! Encoder/decoder round-trip lemmas. -/

theorem decodeDifficulty_encode (x : Difficulty) :
    decodeDifficulty (encodeDifficulty x) = some x := by
  cases x <;> rfl

theorem decodeMetadata_encode (m : CardMetadata) :
    decodeMetadata (encodeMetadata m) = some m := by
  obtain ⟨df, tr, cc, lr⟩ := m
  cases df <;> cases lr <;> rfl

theorem decodeFlashcard_encode (c : Flashcard) :
    decodeFlashcard (encodeFlashcard c) = some c := by
  obtain ⟨i, q, a, m⟩ := c
  obtain ⟨df, tr, cc, lr⟩ := m
  cases df <;> cases lr <;> rfl

theorem decodeEntry_encode (k : Nat) (c : Flashcard) :
    decodeEntry (natToString k, encodeFlashcard c) = some (k, c) := by
  simp [decodeEntry, stringToNat_natToString, decodeFlashcard_encode]

theorem lookupA_append_none (k : Nat) (l1 l2 : List (Nat × Flashcard))
    (h : lookupA k l1 = none) : lookupA k (l1 ++ l2) = lookupA k l2 := by
  induction l1 with
  | nil => rfl
  | cons p rest ih =>
    obtain ⟨a, b⟩ := p
    by_cases ha : a = k
    · simp [lookupA, ha] at h
    · simp only [lookupA, if_neg ha] at h
      simp [List.cons_append, lookupA, ha, ih h]

theorem insertA_append_of_none (k : Nat) (v : Flashcard) (l : List (Nat × Flashcard))
    (h : lookupA k l = none) : insertA k v l = l ++ [(k, v)] := by
  induction l with
  | nil => rfl
  | cons p rest ih =>
    obtain ⟨a, b⟩ := p
    by_cases ha : a = k
    · simp [lookupA, ha] at h
    · simp only [lookupA, if_neg ha] at h
      simp [insertA, ha, ih h]

theorem decodeCards_encode : ∀ (l acc : List (Nat × Flashcard)),
    (∀ p ∈ l, lookupA p.1 acc = none) → (l.map Prod.fst).Nodup →
    decodeCards (l.map (fun p => (natToString p.1, encodeFlashcard p.2))) acc =
      some (acc ++ l) := by
  intro l
  induction l with
  | nil =>
    intro acc h hd
    simp [decodeCards]
  | cons p rest ih =>
    intro acc h hd
    obtain ⟨k, c⟩ := p
    have hk : lookupA k acc = none := h (k, c) (List.mem_cons_self _ _)
    have hnodup : (rest.map Prod.fst).Nodup := (List.nodup_cons.1 hd).2
    have hknot : k ∉ rest.map Prod.fst := (List.nodup_cons.1 hd).1
    have hrest : ∀ p ∈ rest, lookupA p.1 (acc ++ [(k, c)]) = none := by
      intro q hq
      rw [lookupA_append_none _ _ _ (h q (List.mem_cons_of_mem _ hq))]
      have hne : k ≠ q.1 := by
        intro he
        exact hknot (he ▸ List.mem_map_of_mem Prod.fst hq)
      simp [lookupA, hne]
    have step :
        decodeCards (((k, c) :: rest).map (fun p => (natToString p.1, encodeFlashcard p.2)))
          acc =
        decodeCards (rest.map (fun p => (natToString p.1, encodeFlashcard p.2)))
          (insertA k c acc) := by
      simp [decodeCards, decodeEntry_encode k c]
    rw [step, insertA_append_of_none _ _ _ hk, ih (acc ++ [(k, c)]) hrest hnodup]
    simp

/-- Claim C1: persistence round-trip.  For every well-formed deck (distinct
    map keys, as every Rust `HashMap` guarantees), decoding the serialized
    document reconstructs the deck exactly: every card with its full metadata,
    and the stored `next_id`, including the empty deck and decks whose
    `next_id` exceeds all present ids after deletions. -/
theorem save_load_roundtrip (d : FlashcardDeck) (h : d.WF) :
    load_from_file (save_to_file d) = some d := by
  have h1 : (save_to_file d).getField "cards" =
      some (Json.obj (d.cards.map (fun p => (natToString p.1, encodeFlashcard p.2)))) := rfl
  have h2 : (save_to_file d).getField "next_id" = some (Json.num d.next_id) := rfl
  have hc : decodeCards (d.cards.map (fun p => (natToString p.1, encodeFlashcard p.2))) [] =
      some d.cards := by
    simpa using decodeCards_encode d.cards [] (fun p _ => rfl) h
  simp [load_from_file, h1, h2, hc, decodeNum]

/-- Concrete instantiations of C1: the empty deck, a two-card deck with
    nontrivial statistics, and a deck whose `next_id` has a deletion gap. -/
theorem save_load_roundtrip_witness :
    (FlashcardDeck.new.WF ∧
      load_from_file (save_to_file FlashcardDeck.new) = some FlashcardDeck.new) ∧
    (demo2.WF ∧ load_from_file (save_to_file demo2) = some demo2) ∧
    (demoGap.WF ∧ load_from_file (save_to_file demoGap) = some demoGap) :=
  ⟨⟨by decide, save_load_roundtrip FlashcardDeck.new (by decide)⟩,
   ⟨by decide, save_load_roundtrip demo2 (by decide)⟩,
   ⟨by decide, save_load_roundtrip demoGap (by decide)⟩⟩
